import Mathlib

/-!
Verification of the recitation-scoring core of the quran-quest backend
(`backend/app/services/recitation_service.py`).

Texts are modelled as lists of Unicode characters (`List Char`).  Python
string operations used by the code (`str.replace` of a single character,
`str.strip`, `str.split` with no argument) are modelled by the
corresponding list functions below, with Python's whitespace set spelled
out.  The call to `unicodedata.normalize('NFKC', text)` is modelled by a
per-character map `nfkcChar` whose non-identity entries are taken from the
Unicode character database; on every character appearing in the theorems
below the map agrees with real NFKC (the inputs involved contain no
interacting combining sequences, so NFKC acts character by character on
them).  The call to `Levenshtein.distance` on two word lists is modelled
by the textbook unit-cost edit-distance recurrence `levDist`, which is
proved equal to Mathlib's `levenshtein Levenshtein.defaultCost`.
-/

namespace QuranQuest

/-- Coerce a string literal to the character-list text model. -/
def str (s : String) : List Char := s.data

/-- The 12 combining marks removed by `normalize_arabic_text`
(`diacritics` list in the source). -/
def diacritics : List Char :=
  ['ً', 'ٌ', 'ٍ', 'َ', 'ُ', 'ِ',
   'ّ', 'ْ', 'ٓ', 'ٔ', 'ٕ', 'ٰ']

/-- Python `text.replace(d, '')` for a single character `d`. -/
def removeAll (d : Char) (s : List Char) : List Char :=
  s.filter (fun c => c ≠ d)

/-- The `for d in diacritics: text = text.replace(d, '')` loop. -/
def removeDiacritics (s : List Char) : List Char :=
  diacritics.foldl (fun t d => removeAll d t) s

/-- Per-character model of `unicodedata.normalize('NFKC', ·)`.
Non-identity entries are real Unicode NFKC data:
U+00A0 (no-break space) maps to U+0020, and U+FE70 (Arabic Fathatan
isolated form) compatibility-decomposes to U+0020 followed by U+064B.
Characters outside the table are treated as NFKC-inert; every theorem
below only exercises the map on characters where this is true. -/
def nfkcChar (c : Char) : List Char :=
  if c = '\u00A0' then [' ']
  else if c = '\uFE70' then [' ', 'ً']
  else [c]

/-- `unicodedata.normalize('NFKC', text)` on the model. -/
def nfkc (s : List Char) : List Char :=
  (s.map nfkcChar).flatten

/-- Python `text.replace(a, b)` for single characters. -/
def replace1 (a b : Char) (s : List Char) : List Char :=
  s.map (fun c => if c = a then b else c)

/-- The letter-variant folding block: alef variants to bare alef,
ta marbuta to ha, alef maksura to ya, in source order. -/
def foldVariants (s : List Char) : List Char :=
  replace1 'ى' 'ي' <|
    replace1 'ة' 'ه' <|
      replace1 'ٱ' 'ا' <|
        replace1 'إ' 'ا' <|
          replace1 'أ' 'ا' <|
            replace1 'آ' 'ا' s

/-- Python's str whitespace set (characters stripped by `str.strip()` and
split on by `str.split()`). -/
def isPySpace (c : Char) : Bool :=
  c.toNat ∈ [0x09, 0x0A, 0x0B, 0x0C, 0x0D, 0x1C, 0x1D, 0x1E, 0x1F, 0x20,
    0x85, 0xA0, 0x1680, 0x2000, 0x2001, 0x2002, 0x2003, 0x2004, 0x2005,
    0x2006, 0x2007, 0x2008, 0x2009, 0x200A, 0x2028, 0x2029, 0x202F,
    0x205F, 0x3000]

/-- Python `text.strip()`. -/
def stripWS (s : List Char) : List Char :=
  List.rdropWhile isPySpace (List.dropWhile isPySpace s)

/-- Helper for `splitWS`: walk the characters keeping an accumulator of
the current (reversed) word. -/
def splitWSAux : List Char → List Char → List (List Char)
  | [], acc => if acc.isEmpty then [] else [acc.reverse]
  | c :: cs, acc =>
    if isPySpace c then
      if acc.isEmpty then splitWSAux cs []
      else acc.reverse :: splitWSAux cs []
    else splitWSAux cs (c :: acc)

/-- Python `text.split()`: split on whitespace runs, discarding empties. -/
def splitWS (s : List Char) : List (List Char) :=
  splitWSAux s []

/-- `normalize_arabic_text`: remove the 12 diacritics, NFKC-normalize,
fold letter variants, strip outer whitespace. -/
def normalize_arabic_text (s : List Char) : List Char :=
  stripWS (foldVariants (nfkc (removeDiacritics s)))

/-- Inner recursion of `levDist`: the distance from `x :: xs` to the
second argument, where `rest` is the distance function from `xs`. -/
def levDistAux (x : List Char) (xs : List (List Char))
    (rest : List (List Char) → ℕ) :
    List (List Char) → ℕ
  | [] => xs.length + 1
  | y :: ys =>
    min (1 + rest (y :: ys))
      (min (1 + levDistAux x xs rest ys)
        ((if x = y then 0 else 1) + rest ys))

/-- Unit-cost word-level Levenshtein distance, the quantity computed by
the `Levenshtein.distance` library call on two word lists.  Defined by
structural recursion; the textbook recurrence is recovered in
`levDist_nil`, `levDist_cons_nil` and `levDist_cons_cons` below. -/
def levDist : List (List Char) → List (List Char) → ℕ
  | [] => fun ys => ys.length
  | x :: xs => levDistAux x xs (levDist xs)

/-- `calculate_wer`. -/
def calculate_wer (reference hypothesis : List Char) : ℚ :=
  let ref_words := splitWS (stripWS reference)
  let hyp_words := splitWS (stripWS hypothesis)
  if ref_words.length = 0 then
    (if hyp_words.length = 0 then 0 else 1)
  else
    (levDist ref_words hyp_words : ℚ) / (ref_words.length : ℚ)

/-- One entry of the word-level feedback list. -/
structure WordFeedback where
  word_index : ℕ
  word : List Char
  expected : List Char
  status : String
  suggestion : Option (List Char)
deriving DecidableEq, Repr

/-- The expected-exhausted tail of the feedback loop: every remaining
transcribed word is emitted as `extra`, advancing the cursor `j`. -/
def gwfExtras (j : ℕ) : List (List Char) → List WordFeedback
  | [] => []
  | w :: ts => ⟨j, w, [], "extra", none⟩ :: gwfExtras (j + 1) ts

/-- The two-cursor feedback loop of `generate_word_feedback`, with the
cursor values `i`, `j` carried explicitly and the unconsumed suffixes of
the two word lists as the recursion arguments.  Once the expected list is
exhausted the loop only ever emits `extra` entries, which is the
`gwfExtras` tail; the step-by-step loop equations are recovered in
`gwfAux_nil_cons`, `gwfAux_cons_nil` and `gwfAux_cons_cons` below. -/
def gwfAux (i j : ℕ) : List (List Char) → List (List Char) → List WordFeedback
  | [], ts => gwfExtras j ts
  | w :: es, [] =>
    ⟨i, [], w, "missing", some w⟩ :: gwfAux (i + 1) j es []
  | we :: es, wt :: ts =>
    if we = wt then
      ⟨i, wt, we, "correct", none⟩ :: gwfAux (i + 1) (j + 1) es ts
    else
      ⟨i, wt, we, "incorrect", some we⟩ :: gwfAux (i + 1) (j + 1) es ts

/-- `generate_word_feedback`. -/
def generate_word_feedback (expected_text transcription : List Char) :
    List WordFeedback :=
  gwfAux 0 0 (splitWS expected_text) (splitWS transcription)

/-- Python `round`: round half to even (banker's rounding) to an integer. -/
def pyRound (q : ℚ) : ℤ :=
  if q - ⌊q⌋ < 1 / 2 then ⌊q⌋
  else if 1 / 2 < q - ⌊q⌋ then ⌊q⌋ + 1
  else if Even ⌊q⌋ then ⌊q⌋ else ⌊q⌋ + 1

/-- Python `round(q, n)`. -/
def roundTo (q : ℚ) (n : ℕ) : ℚ :=
  (pyRound (q * (10 : ℚ) ^ n) : ℚ) / (10 : ℚ) ^ n

/-- Result record of `analyze_recitation_accuracy`. -/
structure ScoreResult where
  accuracy : ℚ
  wer : ℚ
  feedback : List WordFeedback
deriving DecidableEq, Repr

/-- `analyze_recitation_accuracy(transcription, expected_text)`. -/
def analyze_recitation_accuracy (transcription expected_text : List Char) :
    ScoreResult :=
  let t := normalize_arabic_text transcription
  let e := normalize_arabic_text expected_text
  let wer := calculate_wer e t
  let accuracy := max 0 (min 100 ((1 - wer) * 100))
  ⟨roundTo accuracy 2, roundTo wer 4, generate_word_feedback e t⟩

/-- Python `int(q)`: truncation toward zero. -/
def pyInt (q : ℚ) : ℤ :=
  if 0 ≤ q then ⌊q⌋ else -⌊-q⌋

/-- The tiered accuracy multiplier of `calculate_xp_reward`. -/
def accuracy_multiplier (accuracy : ℚ) : ℚ :=
  if accuracy ≥ 95 then 3
  else if accuracy ≥ 90 then 5 / 2
  else if accuracy ≥ 80 then 2
  else if accuracy ≥ 70 then 3 / 2
  else if accuracy ≥ 50 then 1
  else 1 / 2

/-- The duration factor of `calculate_xp_reward`. -/
def duration_factor (duration_seconds : ℕ) : ℚ :=
  min 2 (1 + ((duration_seconds : ℚ) / 60) * (1 / 2))

/-- `calculate_xp_reward`. -/
def calculate_xp_reward (accuracy : ℚ) (duration_seconds : ℕ) : ℤ :=
  let base_xp : ℚ := 10
  let xp := pyInt (base_xp * accuracy_multiplier accuracy *
    duration_factor duration_seconds)
  max 5 xp

/-- The per-character action of the variant-folding block of
`normalize_arabic_text`, the six single-character replaces composed in
source order. -/
def variantFold (c : Char) : Char :=
  let c1 := if c = 'آ' then 'ا' else c
  let c2 := if c1 = 'أ' then 'ا' else c1
  let c3 := if c2 = 'إ' then 'ا' else c2
  let c4 := if c3 = 'ٱ' then 'ا' else c3
  let c5 := if c4 = 'ة' then 'ه' else c4
  if c5 = 'ى' then 'ي' else c5

/-- The six source characters of the variant-folding replaces. -/
def variantSources : List Char := ['آ', 'أ', 'إ', 'ٱ', 'ة', 'ى']

/-- Characters on which the per-character NFKC model is exact and the
identity: ASCII, the Arabic letter block U+0621–U+064A, and alef wasla
U+0671.  All of these are NFKC-inert non-combining starters, so real NFKC
is the identity on any string made of them. -/
def SafeChar (c : Char) : Prop :=
  c.toNat ≤ 0x7F ∨ (0x621 ≤ c.toNat ∧ c.toNat ≤ 0x64A) ∨ c = 'ٱ'

instance (c : Char) : Decidable (SafeChar c) := by
  unfold SafeChar; infer_instance

/-- The alignment walk exactly as the specification words it: two cursors
`i` (expected) and `j` (transcribed) moving left to right; if expected is
exhausted emit `extra` for the transcribed token at `j` (expected field
empty, no suggestion) and advance `j`; else if transcribed is exhausted
emit `missing` for the expected token at `i` (word field empty, suggestion
the expected word) and advance `i`; else if the tokens are equal emit
`correct` and advance both; otherwise emit `incorrect` (word the
transcribed token, expected and suggestion the expected token) and
advance both. -/
def specAlignmentWalk (i j : ℕ) :
    List (List Char) → List (List Char) → List WordFeedback
  | [], [] => []
  | [], t :: ts =>
    ⟨j, t, [], "extra", none⟩ :: specAlignmentWalk i (j + 1) [] ts
  | e :: es, [] =>
    ⟨i, [], e, "missing", some e⟩ :: specAlignmentWalk (i + 1) j es []
  | e :: es, t :: ts =>
    if e = t then
      ⟨i, t, e, "correct", none⟩ :: specAlignmentWalk (i + 1) (j + 1) es ts
    else
      ⟨i, t, e, "incorrect", some e⟩ :: specAlignmentWalk (i + 1) (j + 1) es ts
termination_by es ts => es.length + ts.length

/-- The normalization pipeline before the final strip: everything
`normalize_arabic_text` does except the outer `text.strip()`. -/
def preStrip (s : List Char) : List Char :=
  foldVariants (nfkc (removeDiacritics s))

/-! ### Basic equations of the embedded functions -/

@[simp]
theorem levDist_nil (ys : List (List Char)) : levDist [] ys = ys.length :=
  rfl

@[simp]
theorem levDist_cons_nil (x : List Char) (xs : List (List Char)) :
    levDist (x :: xs) [] = xs.length + 1 :=
  rfl

@[simp]
theorem levDist_cons_cons (x y : List Char) (xs ys : List (List Char)) :
    levDist (x :: xs) (y :: ys) =
      min (1 + levDist xs (y :: ys))
        (min (1 + levDist (x :: xs) ys)
          ((if x = y then 0 else 1) + levDist xs ys)) :=
  rfl

theorem levenshtein_default_nil (ys : List (List Char)) :
    levenshtein Levenshtein.defaultCost [] ys = ys.length := by
  induction ys with
  | nil => simp
  | cons y ys ih => simp [ih, Nat.add_comm]

theorem levenshtein_default_nil_right (xs : List (List Char)) :
    levenshtein Levenshtein.defaultCost xs [] = xs.length := by
  induction xs with
  | nil => simp
  | cons x xs ih => simp [ih, Nat.add_comm]

/-- The structural-recursion edit distance used in the embedding agrees
with Mathlib's `levenshtein` under the all-unit cost structure. -/
theorem levDist_eq_levenshtein (xs : List (List Char)) :
    ∀ ys, levDist xs ys = levenshtein Levenshtein.defaultCost xs ys := by
  induction xs with
  | nil =>
    intro ys
    rw [levDist_nil, levenshtein_default_nil]
  | cons x xs ih =>
    intro ys
    induction ys with
    | nil =>
      rw [levDist_cons_nil, levenshtein_default_nil_right]
      simp
    | cons y ys ihy =>
      rw [levDist_cons_cons, levenshtein_cons_cons, ih, ih, ihy]
      simp [Nat.add_comm]

@[simp]
theorem gwfExtras_length (j : ℕ) (ts : List (List Char)) :
    (gwfExtras j ts).length = ts.length := by
  induction ts generalizing j with
  | nil => rfl
  | cons w ts ih => simp [gwfExtras, ih]

/-- The feedback walk emits exactly `max` of the two token counts many
entries. -/
theorem gwfAux_length (es : List (List Char)) :
    ∀ (ts : List (List Char)) (i j : ℕ),
      (gwfAux i j es ts).length = max es.length ts.length := by
  induction es with
  | nil => intro ts i j; simp [gwfAux]
  | cons w es ih =>
    intro ts i j
    cases ts with
    | nil => simp [gwfAux, ih]
    | cons wt ts =>
      by_cases h : w = wt <;>
        simp [gwfAux, h, ih, Nat.succ_max_succ]

theorem gwfAux_nil_cons (i j : ℕ) (w : List Char) (ts : List (List Char)) :
    gwfAux i j [] (w :: ts) =
      ⟨j, w, [], "extra", none⟩ :: gwfAux i (j + 1) [] ts :=
  rfl

theorem gwfAux_cons_nil (i j : ℕ) (w : List Char) (es : List (List Char)) :
    gwfAux i j (w :: es) [] =
      ⟨i, [], w, "missing", some w⟩ :: gwfAux (i + 1) j es [] :=
  rfl

theorem gwfAux_cons_cons (i j : ℕ) (we wt : List Char)
    (es ts : List (List Char)) :
    gwfAux i j (we :: es) (wt :: ts) =
      if we = wt then
        ⟨i, wt, we, "correct", none⟩ :: gwfAux (i + 1) (j + 1) es ts
      else
        ⟨i, wt, we, "incorrect", some we⟩ :: gwfAux (i + 1) (j + 1) es ts :=
  rfl

theorem gwfExtras_eq_specWalk (ts : List (List Char)) :
    ∀ i j, gwfExtras j ts = specAlignmentWalk i j [] ts := by
  induction ts with
  | nil => intro i j; rw [specAlignmentWalk]; rfl
  | cons t ts ih =>
    intro i j
    rw [specAlignmentWalk]
    exact congrArg _ (ih i (j + 1))

/-- The loop of `generate_word_feedback` coincides with the walk as the
specification describes it. -/
theorem gwfAux_eq_specWalk (es : List (List Char)) :
    ∀ (ts : List (List Char)) (i j : ℕ),
      gwfAux i j es ts = specAlignmentWalk i j es ts := by
  induction es with
  | nil =>
    intro ts i j
    exact gwfExtras_eq_specWalk ts i j
  | cons e es ih =>
    intro ts i j
    cases ts with
    | nil =>
      rw [gwfAux_cons_nil, specAlignmentWalk]
      exact congrArg _ (ih [] (i + 1) j)
    | cons t ts =>
      rw [gwfAux_cons_cons, specAlignmentWalk]
      by_cases h : e = t
      · rw [if_pos h, if_pos h]
        exact congrArg _ (ih ts (i + 1) (j + 1))
      · rw [if_neg h, if_neg h]
        exact congrArg _ (ih ts (i + 1) (j + 1))

/-! ### Character-level analysis of `normalize_arabic_text` -/

set_option maxHeartbeats 1000000 in
theorem foldVariants_eq_map (s : List Char) :
    foldVariants s = s.map variantFold := by
  simp only [foldVariants, replace1, List.map_map]
  apply List.map_congr_left
  intro c _
  simp only [Function.comp_apply]
  rfl

theorem variantFold_eq_self_of_not_source {c : Char}
    (h : c ∉ variantSources) : variantFold c = c := by
  simp only [variantSources, List.mem_cons, List.not_mem_nil, or_false] at h
  push_neg at h
  obtain ⟨h1, h2, h3, h4, h5, h6⟩ := h
  simp [variantFold, h1, h2, h3, h4, h5, h6]

theorem variantFold_not_source (c : Char) :
    variantFold c ∉ variantSources := by
  by_cases h : c ∈ variantSources
  · simp only [variantSources, List.mem_cons, List.not_mem_nil, or_false] at h
    rcases h with rfl | rfl | rfl | rfl | rfl | rfl <;> decide
  · rw [variantFold_eq_self_of_not_source h]
    exact h

theorem variantFold_idem (c : Char) :
    variantFold (variantFold c) = variantFold c :=
  variantFold_eq_self_of_not_source (variantFold_not_source c)

theorem isPySpace_variantFold (c : Char) :
    isPySpace (variantFold c) = isPySpace c := by
  by_cases h : c ∈ variantSources
  · simp only [variantSources, List.mem_cons, List.not_mem_nil, or_false] at h
    rcases h with rfl | rfl | rfl | rfl | rfl | rfl <;> decide
  · rw [variantFold_eq_self_of_not_source h]

theorem nfkcChar_safe {c : Char} (h : SafeChar c) : nfkcChar c = [c] := by
  have h1 : c ≠ '\u00A0' := by rintro rfl; exact absurd h (by decide)
  have h2 : c ≠ '\uFE70' := by rintro rfl; exact absurd h (by decide)
  rw [nfkcChar, if_neg h1, if_neg h2]

theorem nfkc_eq_self {s : List Char} (h : ∀ c ∈ s, SafeChar c) :
    nfkc s = s := by
  induction s with
  | nil => rfl
  | cons c cs ih =>
    have hc : nfkc (c :: cs) = nfkcChar c ++ nfkc cs := by
      simp [nfkc]
    rw [hc, nfkcChar_safe (h c (by simp)),
      ih (fun d hd => h d (List.mem_cons_of_mem c hd))]
    rfl

theorem safeChar_variantFold {c : Char} (h : SafeChar c) :
    SafeChar (variantFold c) := by
  by_cases hs : c ∈ variantSources
  · simp only [variantSources, List.mem_cons, List.not_mem_nil, or_false] at hs
    rcases hs with rfl | rfl | rfl | rfl | rfl | rfl <;> decide
  · rwa [variantFold_eq_self_of_not_source hs]

theorem safeChar_not_diacritic {c : Char} (h : SafeChar c) :
    c ∉ diacritics := by
  intro hd
  simp only [diacritics, List.mem_cons, List.not_mem_nil, or_false] at hd
  rcases hd with rfl | rfl | rfl | rfl | rfl | rfl | rfl | rfl | rfl | rfl
    | rfl | rfl <;> exact absurd h (by decide)

theorem space_not_diacritic {c : Char} (h : isPySpace c = true) :
    c ∉ diacritics := by
  intro hd
  simp only [diacritics, List.mem_cons, List.not_mem_nil, or_false] at hd
  rcases hd with rfl | rfl | rfl | rfl | rfl | rfl | rfl | rfl | rfl | rfl
    | rfl | rfl <;> exact absurd h (by decide)

theorem removeDiacritics_eq_filter (s : List Char) :
    removeDiacritics s = s.filter (fun c => decide (c ∉ diacritics)) := by
  simp only [removeDiacritics, diacritics, List.foldl_cons, List.foldl_nil,
    removeAll, List.filter_filter]
  apply List.filter_congr
  intro c _
  by_cases hm : c ∈ diacritics
  · simp only [diacritics, List.mem_cons, List.not_mem_nil, or_false] at hm
    rcases hm with rfl | rfl | rfl | rfl | rfl | rfl | rfl | rfl | rfl | rfl
      | rfl | rfl <;> decide
  · have hm' := hm
    simp only [diacritics, List.mem_cons, List.not_mem_nil, or_false] at hm
    push_neg at hm
    obtain ⟨h1, h2, h3, h4, h5, h6, h7, h8, h9, h10, h11, h12⟩ := hm
    simp [h1, h2, h3, h4, h5, h6, h7, h8, h9, h10, h11, h12, hm']

theorem mem_of_mem_removeDiacritics {c : Char} {s : List Char}
    (h : c ∈ removeDiacritics s) : c ∈ s := by
  rw [removeDiacritics_eq_filter] at h
  exact List.mem_of_mem_filter h

theorem not_diacritic_of_mem_removeDiacritics {c : Char} {s : List Char}
    (h : c ∈ removeDiacritics s) : c ∉ diacritics := by
  rw [removeDiacritics_eq_filter] at h
  exact of_decide_eq_true (List.mem_filter.mp h).2

theorem removeDiacritics_eq_self {s : List Char}
    (h : ∀ c ∈ s, c ∉ diacritics) : removeDiacritics s = s := by
  rw [removeDiacritics_eq_filter]
  exact List.filter_eq_self.mpr (fun a ha => decide_eq_true (h a ha))

theorem filter_space_removeDiacritics (s : List Char) :
    (removeDiacritics s).filter isPySpace = s.filter isPySpace := by
  rw [removeDiacritics_eq_filter, List.filter_filter]
  apply List.filter_congr
  intro c _
  by_cases hsp : isPySpace c
  · simp [hsp, space_not_diacritic hsp]
  · simp [hsp]

theorem filter_space_map_variantFold (s : List Char) :
    (s.map variantFold).filter isPySpace = s.filter isPySpace := by
  induction s with
  | nil => rfl
  | cons c cs ih =>
    by_cases hsp : isPySpace c
    · have hv : variantFold c = c := by
        apply variantFold_eq_self_of_not_source
        intro hm
        simp only [variantSources, List.mem_cons, List.not_mem_nil,
          or_false] at hm
        rcases hm with rfl | rfl | rfl | rfl | rfl | rfl <;>
          exact absurd hsp (by decide)
      simp [List.filter_cons, hv, hsp, ih]
    · simp [List.filter_cons, isPySpace_variantFold, hsp, ih]

theorem stripWS_sublist (s : List Char) : List.Sublist (stripWS s) s :=
  ((List.rdropWhile_prefix isPySpace _).sublist).trans
    (List.dropWhile_sublist isPySpace)

theorem stripWS_idem (s : List Char) : stripWS (stripWS s) = stripWS s := by
  unfold stripWS
  have hdx : List.dropWhile isPySpace (List.dropWhile isPySpace s) =
      List.dropWhile isPySpace s := List.dropWhile_idempotent _ _
  have hpre : List.rdropWhile isPySpace (List.dropWhile isPySpace s) <+:
      List.dropWhile isPySpace s := List.rdropWhile_prefix _ _
  have h1 : List.dropWhile isPySpace
      (List.rdropWhile isPySpace (List.dropWhile isPySpace s)) =
      List.rdropWhile isPySpace (List.dropWhile isPySpace s) := by
    rw [List.dropWhile_eq_self_iff]
    intro hl
    have hxl : 0 < (List.dropWhile isPySpace s).length :=
      lt_of_lt_of_le hl hpre.length_le
    have h0 : (List.rdropWhile isPySpace
          (List.dropWhile isPySpace s)).get ⟨0, hl⟩ =
        (List.dropWhile isPySpace s).get ⟨0, hxl⟩ := by
      simpa using hpre.getElem (n := 0) hl
    rw [h0]
    exact (List.dropWhile_eq_self_iff.mp hdx) hxl
  rw [h1, List.rdropWhile_idempotent]

theorem normalize_eq_strip_preStrip (s : List Char) :
    normalize_arabic_text s = stripWS (preStrip s) :=
  rfl

theorem safe_of_mem_removeDiacritics {s : List Char}
    (h : ∀ c ∈ s, SafeChar c ∨ c ∈ diacritics) :
    ∀ c ∈ removeDiacritics s, SafeChar c := fun c hc =>
  (h c (mem_of_mem_removeDiacritics hc)).resolve_right
    (not_diacritic_of_mem_removeDiacritics hc)

theorem variantFold_fixes_mem_normalize {c : Char} {s : List Char}
    (hc : c ∈ normalize_arabic_text s) : variantFold c = c := by
  have h2 : c ∈ foldVariants (nfkc (removeDiacritics s)) :=
    (stripWS_sublist _).subset hc
  rw [foldVariants_eq_map] at h2
  obtain ⟨d, _, rfl⟩ := List.mem_map.mp h2
  exact variantFold_idem d

theorem mem_normalize_safe {s : List Char}
    (h : ∀ c ∈ s, SafeChar c ∨ c ∈ diacritics) :
    ∀ c ∈ normalize_arabic_text s, SafeChar c := by
  intro c hc
  have h2 : c ∈ foldVariants (nfkc (removeDiacritics s)) :=
    (stripWS_sublist _).subset hc
  rw [foldVariants_eq_map] at h2
  obtain ⟨d, hd, rfl⟩ := List.mem_map.mp h2
  rw [nfkc_eq_self (safe_of_mem_removeDiacritics h)] at hd
  exact safeChar_variantFold (safe_of_mem_removeDiacritics h d hd)

theorem normalize_idem_of_safe {s : List Char}
    (h : ∀ c ∈ s, SafeChar c ∨ c ∈ diacritics) :
    normalize_arabic_text (normalize_arabic_text s) =
      normalize_arabic_text s := by
  have hsafe : ∀ c ∈ normalize_arabic_text s, SafeChar c :=
    mem_normalize_safe h
  have h1 : removeDiacritics (normalize_arabic_text s) =
      normalize_arabic_text s :=
    removeDiacritics_eq_self
      (fun c hc => safeChar_not_diacritic (hsafe c hc))
  have h2 : nfkc (normalize_arabic_text s) = normalize_arabic_text s :=
    nfkc_eq_self hsafe
  have h3 : foldVariants (normalize_arabic_text s) =
      normalize_arabic_text s := by
    rw [foldVariants_eq_map]
    calc (normalize_arabic_text s).map variantFold
        = (normalize_arabic_text s).map id :=
          List.map_congr_left
            (fun c hc => variantFold_fixes_mem_normalize hc)
      _ = normalize_arabic_text s := List.map_id _
  have h4 : stripWS (normalize_arabic_text s) = normalize_arabic_text s :=
    stripWS_idem (preStrip s)
  show stripWS (foldVariants (nfkc
      (removeDiacritics (normalize_arabic_text s)))) =
    normalize_arabic_text s
  rw [h1, h2, h3, h4]

theorem preStrip_filter_space {s : List Char}
    (h : ∀ c ∈ s, SafeChar c ∨ c ∈ diacritics) :
    (preStrip s).filter isPySpace = s.filter isPySpace := by
  show (foldVariants (nfkc (removeDiacritics s))).filter isPySpace =
    s.filter isPySpace
  rw [nfkc_eq_self (safe_of_mem_removeDiacritics h), foldVariants_eq_map,
    filter_space_map_variantFold, filter_space_removeDiacritics]

/-! ### Arithmetic helper lemmas -/

theorem pyRound_nonneg {q : ℚ} (h : 0 ≤ q) : 0 ≤ pyRound q := by
  have hf : (0 : ℤ) ≤ ⌊q⌋ := Int.floor_nonneg.mpr h
  unfold pyRound
  split_ifs <;> omega

theorem pyRound_le {q : ℚ} {n : ℤ} (h : q ≤ (n : ℚ)) : pyRound q ≤ n := by
  have hfn : ⌊q⌋ ≤ n := by
    calc ⌊q⌋ ≤ ⌊(n : ℚ)⌋ := Int.floor_le_floor h
      _ = n := Int.floor_intCast n
  unfold pyRound
  split_ifs with h1 h2 h3
  · exact hfn
  all_goals {
    have hlt : ((⌊q⌋ : ℚ)) < q := by
      have : (1 : ℚ) / 2 ≤ q - ⌊q⌋ := le_of_not_lt h1
      linarith
    have : ((⌊q⌋ : ℚ)) < (n : ℚ) := lt_of_lt_of_le hlt h
    have : ⌊q⌋ < n := by exact_mod_cast this
    omega }

theorem roundTo_nonneg {q : ℚ} (n : ℕ) (h : 0 ≤ q) : 0 ≤ roundTo q n := by
  unfold roundTo
  apply div_nonneg
  · exact_mod_cast pyRound_nonneg (by positivity)
  · positivity

theorem roundTo_le {q : ℚ} {m : ℤ} (n : ℕ) (h : q ≤ (m : ℚ)) :
    roundTo q n ≤ (m : ℚ) := by
  unfold roundTo
  rw [div_le_iff₀ (by positivity)]
  have hq : q * (10 : ℚ) ^ n ≤ ((m * 10 ^ n : ℤ) : ℚ) := by
    push_cast
    apply mul_le_mul_of_nonneg_right h (by positivity)
  calc ((pyRound (q * (10 : ℚ) ^ n) : ℚ))
      ≤ ((m * 10 ^ n : ℤ) : ℚ) := by exact_mod_cast pyRound_le hq
    _ = (m : ℚ) * (10 : ℚ) ^ n := by push_cast; ring

theorem pyInt_eq_floor {q : ℚ} (h : 0 ≤ q) : pyInt q = ⌊q⌋ := by
  unfold pyInt
  exact if_pos h

theorem accuracy_multiplier_pos (a : ℚ) : 0 < accuracy_multiplier a := by
  unfold accuracy_multiplier
  split_ifs <;> norm_num

theorem accuracy_multiplier_mono {a1 a2 : ℚ} (h : a1 ≤ a2) :
    accuracy_multiplier a1 ≤ accuracy_multiplier a2 := by
  unfold accuracy_multiplier
  split_ifs <;> linarith

theorem one_le_duration_factor (d : ℕ) : 1 ≤ duration_factor d := by
  unfold duration_factor
  apply le_min (by norm_num)
  have : (0 : ℚ) ≤ (d : ℚ) / 60 * (1 / 2) := by positivity
  linarith

/-- Field equations of `analyze_recitation_accuracy`. -/
theorem analyze_feedback_eq (t e : List Char) :
    (analyze_recitation_accuracy t e).feedback =
      gwfAux 0 0 (splitWS (normalize_arabic_text e))
        (splitWS (normalize_arabic_text t)) := by
  simp only [analyze_recitation_accuracy, generate_word_feedback]

theorem analyze_wer_eq (t e : List Char) :
    (analyze_recitation_accuracy t e).wer =
      roundTo (calculate_wer (normalize_arabic_text e)
        (normalize_arabic_text t)) 4 := by
  simp only [analyze_recitation_accuracy]

theorem analyze_accuracy_eq (t e : List Char) :
    (analyze_recitation_accuracy t e).accuracy =
      roundTo (max 0 (min 100 ((1 - calculate_wer (normalize_arabic_text e)
        (normalize_arabic_text t)) * 100))) 2 := by
  simp only [analyze_recitation_accuracy]

/-! ### Claim theorems -/

/-- C1: for every pair of input strings, after normalizing and tokenizing
both, the feedback list of the scorer is exactly the left-to-right
two-cursor walk described by the specification (statuses
extra/missing/correct/incorrect with the stated fields and suggestions);
in particular for an expected text of 3 tokens and a transcription of 5
tokens whose first 3 match, the verdicts are 3 times correct followed by
2 times extra. -/
theorem feedback_is_spec_two_cursor_walk :
    (∀ transcription expected_text : List Char,
      (analyze_recitation_accuracy transcription expected_text).feedback =
        specAlignmentWalk 0 0
          (splitWS (normalize_arabic_text expected_text))
          (splitWS (normalize_arabic_text transcription))) ∧
    (∀ x y z u v : List Char,
      (gwfAux 0 0 [x, y, z] [x, y, z, u, v]).map
          (fun f => f.status) =
        ["correct", "correct", "correct", "extra", "extra"]) := by
  constructor
  · intro t e
    rw [analyze_feedback_eq]
    exact gwfAux_eq_specWalk (splitWS (normalize_arabic_text e))
      (splitWS (normalize_arabic_text t)) 0 0
  · intro x y z u v
    rw [gwfAux_cons_cons, if_pos rfl, gwfAux_cons_cons, if_pos rfl,
      gwfAux_cons_cons, if_pos rfl]
    simp [gwfAux, gwfExtras]

/-- C10: for every pair of input strings the feedback list has length
exactly `max m n`, where `m` and `n` are the token counts of the
normalized expected text and the normalized transcription, and it is
empty exactly when both normalized texts have no tokens. -/
theorem feedback_length_eq_max :
    ∀ transcription expected_text : List Char,
      ((analyze_recitation_accuracy transcription expected_text).feedback.length
          = max (splitWS (normalize_arabic_text expected_text)).length
              (splitWS (normalize_arabic_text transcription)).length) ∧
      ((analyze_recitation_accuracy transcription expected_text).feedback = []
        ↔ (splitWS (normalize_arabic_text expected_text)).length = 0 ∧
          (splitWS (normalize_arabic_text transcription)).length = 0) := by
  intro t e
  have hl : (analyze_recitation_accuracy t e).feedback.length =
      max (splitWS (normalize_arabic_text e)).length
        (splitWS (normalize_arabic_text t)).length := by
    rw [analyze_feedback_eq]
    exact gwfAux_length (splitWS (normalize_arabic_text e))
      (splitWS (normalize_arabic_text t)) 0 0
  refine ⟨hl, ?_⟩
  rw [← List.length_eq_zero, hl, Nat.max_eq_zero_iff]

/-- C8: the greedy feedback walk diverges from the edit-distance
computation: on expected text with one word deleted from the front of the
transcription, the number of non-correct verdicts (3) strictly exceeds
the word-level Levenshtein distance between the token sequences (1). -/
theorem feedback_walk_exceeds_edit_distance :
    ((analyze_recitation_accuracy (str "b c")
          (str "a b c")).feedback.filter
        (fun f => f.status ≠ "correct")).length >
      levDist (splitWS (normalize_arabic_text (str "a b c")))
        (splitWS (normalize_arabic_text (str "b c"))) := by
  decide

theorem pyRound_intCast (n : ℤ) : pyRound (n : ℚ) = n := by
  unfold pyRound
  rw [Int.floor_intCast]
  rw [if_pos (by norm_num)]

theorem roundTo_intCast (n : ℤ) (k : ℕ) : roundTo (n : ℚ) k = (n : ℚ) := by
  unfold roundTo
  rw [show ((n : ℚ) * (10 : ℚ) ^ k) = ((n * 10 ^ k : ℤ) : ℚ) by push_cast; ring,
    pyRound_intCast]
  push_cast
  rw [mul_div_assoc, div_self (by positivity), mul_one]

/-- C2: WER is the unit-cost word-level Levenshtein distance between the
token sequences divided by the number of expected tokens when the
expected token sequence is non-empty, and otherwise 0 when the
transcribed token sequence is also empty and exactly 1 when it is not; in
particular the scorer reports wer 0 on two empty inputs and wer 1 for a
non-empty transcription against an empty expected text. -/
theorem wer_eq_levenshtein_div_ref_tokens :
    (∀ reference hypothesis : List Char,
      calculate_wer reference hypothesis =
        if splitWS (stripWS reference) = [] then
          (if splitWS (stripWS hypothesis) = [] then 0 else 1)
        else
          ((levenshtein Levenshtein.defaultCost (splitWS (stripWS reference))
              (splitWS (stripWS hypothesis)) : ℕ) : ℚ) /
            ((splitWS (stripWS reference)).length : ℚ)) ∧
    (analyze_recitation_accuracy (str "") (str "")).wer = 0 ∧
    (analyze_recitation_accuracy (str "kalima") (str "")).wer = 1 := by
  refine ⟨?_, ?_, ?_⟩
  · intro r h
    simp only [calculate_wer, List.length_eq_zero, levDist_eq_levenshtein]
  · rw [analyze_wer_eq]
    have h0 : calculate_wer (normalize_arabic_text (str ""))
        (normalize_arabic_text (str "")) = 0 := rfl
    rw [h0, show (0 : ℚ) = ((0 : ℤ) : ℚ) by norm_num, roundTo_intCast]
  · rw [analyze_wer_eq]
    have h1 : calculate_wer (normalize_arabic_text (str ""))
        (normalize_arabic_text (str "kalima")) = 1 := rfl
    rw [h1, show (1 : ℚ) = ((1 : ℤ) : ℚ) by norm_num, roundTo_intCast]

/-- C3: the accuracy reported by the scorer is (1 − WER) × 100 clamped to
[0, 100] and rounded to 2 decimal places, and in particular it is never
negative (and never above 100). -/
theorem accuracy_clamped_and_rounded :
    ∀ transcription expected_text : List Char,
      ((analyze_recitation_accuracy transcription expected_text).accuracy =
        roundTo (max 0 (min 100 ((1 - calculate_wer
          (normalize_arabic_text expected_text)
          (normalize_arabic_text transcription)) * 100))) 2) ∧
      0 ≤ (analyze_recitation_accuracy transcription expected_text).accuracy ∧
      (analyze_recitation_accuracy transcription expected_text).accuracy ≤
        100 := by
  intro t e
  refine ⟨analyze_accuracy_eq t e, ?_, ?_⟩
  · rw [analyze_accuracy_eq]
    exact roundTo_nonneg 2 (le_max_left 0 _)
  · rw [analyze_accuracy_eq]
    have h1 : max 0 (min 100 ((1 - calculate_wer (normalize_arabic_text e)
        (normalize_arabic_text t)) * 100)) ≤ ((100 : ℤ) : ℚ) := by
      apply max_le (by norm_num)
      calc min 100 ((1 - calculate_wer (normalize_arabic_text e)
            (normalize_arabic_text t)) * 100) ≤ 100 := min_le_left _ _
        _ = ((100 : ℤ) : ℚ) := by norm_num
    calc roundTo (max 0 (min 100 ((1 - calculate_wer
          (normalize_arabic_text e) (normalize_arabic_text t)) * 100))) 2
        ≤ ((100 : ℤ) : ℚ) := roundTo_le 2 h1
      _ = 100 := by norm_num

/-- C4: the XP reward is max(5, floor(10 × accuracyMultiplier ×
durationFactor)) with the tiered multiplier and the capped duration
factor; in particular the reward at accuracy 0 and duration 0 is the
floor value 5, and durations 120 and 600 both hit the duration-factor
cap and give the same reward at accuracy 100. -/
theorem xp_reward_formula :
    (∀ (accuracy : ℚ) (duration_seconds : ℕ),
      calculate_xp_reward accuracy duration_seconds =
        max 5 ⌊(10 : ℚ) * accuracy_multiplier accuracy *
          duration_factor duration_seconds⌋) ∧
    calculate_xp_reward 0 0 = 5 ∧
    calculate_xp_reward 100 120 = calculate_xp_reward 100 600 := by
  have key : ∀ (a : ℚ) (d : ℕ),
      calculate_xp_reward a d =
        max 5 ⌊(10 : ℚ) * accuracy_multiplier a * duration_factor d⌋ := by
    intro a d
    have hpos : 0 ≤ (10 : ℚ) * accuracy_multiplier a * duration_factor d := by
      apply mul_nonneg
      · exact mul_nonneg (by norm_num) (le_of_lt (accuracy_multiplier_pos a))
      · exact le_trans zero_le_one (one_le_duration_factor d)
    simp only [calculate_xp_reward]
    rw [pyInt_eq_floor hpos]
  refine ⟨key, ?_, ?_⟩
  · rw [key]
    have hm : accuracy_multiplier 0 = 1 / 2 := by
      unfold accuracy_multiplier
      norm_num
    have hd : duration_factor 0 = 1 := by
      unfold duration_factor
      norm_num
    rw [hm, hd]
    norm_num
  · have h120 : duration_factor 120 = 2 := by
      unfold duration_factor
      norm_num
    have h600 : duration_factor 600 = 2 := by
      unfold duration_factor
      norm_num
    rw [key, key, h120, h600]

/-- C7: for every fixed duration the XP reward is non-decreasing in the
accuracy over [0, 100], in particular across the tier boundaries. -/
theorem xp_reward_monotone_in_accuracy (d : ℕ) (a1 a2 : ℚ)
    (_h0 : 0 ≤ a1) (h12 : a1 ≤ a2) (_h100 : a2 ≤ 100) :
    calculate_xp_reward a1 d ≤ calculate_xp_reward a2 d := by
  have hm := accuracy_multiplier_mono h12
  have hf0 : 0 ≤ duration_factor d :=
    le_trans zero_le_one (one_le_duration_factor d)
  have hle : (10 : ℚ) * accuracy_multiplier a1 * duration_factor d ≤
      (10 : ℚ) * accuracy_multiplier a2 * duration_factor d := by
    apply mul_le_mul_of_nonneg_right _ hf0
    exact mul_le_mul_of_nonneg_left hm (by norm_num)
  have p1 : 0 ≤ (10 : ℚ) * accuracy_multiplier a1 * duration_factor d :=
    mul_nonneg
      (mul_nonneg (by norm_num) (le_of_lt (accuracy_multiplier_pos a1))) hf0
  simp only [calculate_xp_reward]
  rw [pyInt_eq_floor p1, pyInt_eq_floor (le_trans p1 hle)]
  exact max_le_max le_rfl (Int.floor_le_floor hle)

/-- Witness for C7 at the tier boundary 50 to 95 with duration 0. -/
theorem xp_reward_monotone_in_accuracy_witness :
    (0 : ℚ) ≤ 50 ∧ (50 : ℚ) ≤ 95 ∧ (95 : ℚ) ≤ 100 ∧
      calculate_xp_reward 50 0 ≤ calculate_xp_reward 95 0 :=
  ⟨by norm_num, by norm_num, by norm_num,
    xp_reward_monotone_in_accuracy 0 50 95 (by norm_num) (by norm_num)
      (by norm_num)⟩

/-- C5 counterexample: normalization is not idempotent on every string.
On the single compatibility character U+FE70 (Arabic Fathatan isolated
form) the first pass yields the bare Fathatan U+064B (NFKC reintroduces
it after the diacritic-removal step already ran), and a second pass then
removes it. -/
theorem normalize_not_idempotent_at_fe70 :
    normalize_arabic_text (normalize_arabic_text ['\uFE70']) ≠
      normalize_arabic_text ['\uFE70'] := by
  decide

/-- C5 (amended): normalization is idempotent on every string whose
characters are NFKC-inert (ASCII, the Arabic letter block U+0621–U+064A,
alef wasla) or among the 12 removed diacritics; compatibility characters
whose NFKC image reintroduces a listed diacritic (such as U+FE70) are
excluded, as the counterexample forces. -/
theorem normalize_idempotent_on_safe_strings :
    ∀ s : List Char, (∀ c ∈ s, SafeChar c ∨ c ∈ diacritics) →
      normalize_arabic_text (normalize_arabic_text s) =
        normalize_arabic_text s :=
  fun _ h => normalize_idem_of_safe h

/-- Witness for the amended C5 on a diacritized Arabic word. -/
theorem normalize_idempotent_on_safe_strings_witness :
    (∀ c ∈ str "بِسْمِ", SafeChar c ∨ c ∈ diacritics) ∧
      normalize_arabic_text (normalize_arabic_text (str "بِسْمِ")) =
        normalize_arabic_text (str "بِسْمِ") :=
  ⟨by decide, normalize_idempotent_on_safe_strings (str "بِسْمِ") (by decide)⟩

/-- C6 counterexample: the output of normalization can contain one of the
12 enumerated diacritics.  The removal step runs before Unicode
normalization, so the Fathatan produced by NFKC from U+FE70 survives into
the result. -/
theorem normalize_output_contains_diacritic_at_fe70 :
    normalize_arabic_text ['\uFE70'] = ['\u064B'] ∧ '\u064B' ∈ diacritics := by
  decide

/-- C6 (amended): the output of normalization contains none of the 12
enumerated combining diacritics for every input made of NFKC-inert
characters and the 12 diacritics themselves; occurrences of the 12 marks
that arise only after Unicode normalization of compatibility characters
are not removed, as the counterexample forces. -/
theorem normalize_output_diacritic_free_on_safe_strings :
    ∀ s : List Char, (∀ c ∈ s, SafeChar c ∨ c ∈ diacritics) →
      ∀ c ∈ normalize_arabic_text s, c ∉ diacritics :=
  fun _ h c hc => safeChar_not_diacritic (mem_normalize_safe h c hc)

/-- Witness for the amended C6 on a diacritized Arabic word. -/
theorem normalize_output_diacritic_free_on_safe_strings_witness :
    (∀ c ∈ str "مًا", SafeChar c ∨ c ∈ diacritics) ∧
      ∀ c ∈ normalize_arabic_text (str "مًا"), c ∉ diacritics :=
  ⟨by decide,
    normalize_output_diacritic_free_on_safe_strings (str "مًا") (by decide)⟩

/-- C9 counterexample: normalization does not leave every internal
whitespace character untouched.  U+00A0 is whitespace for the tokenizer
and the strip, yet NFKC replaces an internal U+00A0 with a plain space
U+0020. -/
theorem normalize_replaces_internal_nbsp :
    isPySpace '\u00A0' = true ∧
      normalize_arabic_text ['a', '\u00A0', 'b'] = ['a', ' ', 'b'] ∧
      ('\u00A0' : Char) ≠ ' ' := by
  decide

/-- C9 (amended): for every input made of NFKC-inert characters and the
12 diacritics (so in particular every whitespace character in it is
ASCII), normalization is exactly an end-trim of a character-level pass
that preserves the internal whitespace sequence unchanged: the result is
`stripWS` of `preStrip`, and `preStrip` keeps the whitespace characters
of the input exactly (no run is collapsed, no whitespace character is
removed or replaced); only non-ASCII whitespace such as U+00A0 is
rewritten, as the counterexample forces. -/
theorem normalize_trim_only_preserves_internal_whitespace :
    ∀ s : List Char, (∀ c ∈ s, SafeChar c ∨ c ∈ diacritics) →
      normalize_arabic_text s = stripWS (preStrip s) ∧
        (preStrip s).filter isPySpace = s.filter isPySpace :=
  fun _ h => ⟨rfl, preStrip_filter_space h⟩

/-- Witness for the amended C9 on a diacritized text with an internal
double space. -/
theorem normalize_trim_only_preserves_internal_whitespace_witness :
    (∀ c ∈ str "بً  ا", SafeChar c ∨ c ∈ diacritics) ∧
      (normalize_arabic_text (str "بً  ا") =
          stripWS (preStrip (str "بً  ا")) ∧
        (preStrip (str "بً  ا")).filter isPySpace =
          (str "بً  ا").filter isPySpace) :=
  ⟨by decide,
    normalize_trim_only_preserves_internal_whitespace (str "بً  ا")
      (by decide)⟩

end QuranQuest
